import Mathlib

/-!
Shallow embedding of the libyang YIN schema compiler (src/parser/yin.c, in
this tree src/src/xml.h) together with theorems settling the frozen claims
about it.  Each section embeds one slice of the source; definitions follow
the C code statement by statement.
-/

namespace Libyang

/-- Helper: an `Except.map` that returned `ok` came from an `ok`. -/
theorem except_map_ok {α β ε : Type} (f : α → β) (x : Except ε α) (r : β)
    (h : x.map f = .ok r) : ∃ s, x = .ok s ∧ r = f s := by
  cases x with
  | error e => simp [Except.map] at h
  | ok s => exact ⟨s, rfl, by simpa [Except.map] using h.symm⟩

/-! ## C character classification used by the parser (ctype.h `isspace`) -/

/-- C `isspace` in the POSIX locale: space, \t, \n, \v, \f, \r. -/
def cIsSpace (c : Char) : Bool :=
  c = ' ' || c = '\t' || c = '\n' || c = Char.ofNat 11 || c = Char.ofNat 12 || c = '\r'

/-! ## Enumeration filling (`fill_yin_type`, case `LY_TYPE_ENUM`)

The enum loop of `fill_yin_type` walks the staged `enum` children in source
order keeping a running `int64_t v` (initialised to 0).  For each enum it
performs, in this order: the name checks done by `read_yin_common` (name
present) and by the loop itself (no leading/trailing whitespace, uniqueness
among the enums already read), then either parses the explicit `value` child
(INT32 range check; `v` is bumped to `value + 1` only when `value > v`, and
the duplicate-value check runs only in the non-bumping branch) or
auto-assigns the current `v` (after the `v > INT32_MAX` overflow check) and
increments `v`.  `acc` is the already-filled prefix of
`type->info.enums.list`; the function returns the entries it adds. -/

/-- One staged `enum` statement: its name and the optional parsed `value`. -/
structure EnumSpec where
  ename : String
  evalue : Option Int
deriving Repr, DecidableEq, Inhabited

/-- INT32_MAX as used by the range checks of the enum loop. -/
def int32Max : Int := 2147483647

/-- INT32_MIN as used by the range checks of the enum loop. -/
def int32Min : Int := -2147483648

/-- Error exits of the enum loop, in source order: `VE_MISSARG` (from
`read_yin_common`), `VE_ENUM_WS`, `VE_ENUM_DUPNAME`, `VE_INARG`
(range/overflow), `VE_ENUM_DUPVAL`. -/
inductive EnumErr where
  | missArg
  | wsName
  | dupName
  | badArg
  | dupValue
deriving Repr, DecidableEq

/-- The enum loop of `fill_yin_type` (lines 603-664 of the source). -/
def fillEnumsAux : List EnumSpec → List (String × Int) → Int → Except EnumErr (List (String × Int))
  | [], _, _ => .ok []
  | e :: rest, acc, v =>
    if e.ename = "" then .error .missArg
    else if cIsSpace (e.ename.toList.headD 'x') || cIsSpace (e.ename.toList.getLastD 'x') then
      .error .wsName
    else if acc.any (fun p => p.1 = e.ename) then .error .dupName
    else
      match e.evalue with
      | some w =>
        if w < int32Min || w > int32Max then .error .badArg
        else if w > v then
          (fillEnumsAux rest (acc ++ [(e.ename, w)]) (w + 1)).map (fun s => (e.ename, w) :: s)
        else if acc.any (fun p => p.2 = w) then .error .dupValue
        else
          (fillEnumsAux rest (acc ++ [(e.ename, w)]) v).map (fun s => (e.ename, w) :: s)
      | none =>
        if v > int32Max then .error .badArg
        else
          (fillEnumsAux rest (acc ++ [(e.ename, v)]) (v + 1)).map (fun s => (e.ename, v) :: s)

/-- Filling a direct enumeration type having at least one staged `enum`
child: the list of (name, value) pairs recorded in `type->info.enums`. -/
def fillEnums (es : List EnumSpec) : Except EnumErr (List (String × Int)) :=
  fillEnumsAux es [] 0

/-- One step of the running counter `v` of the enum loop: an explicit value
strictly above the counter sets it to `value + 1`; an automatic assignment
increments it; any other explicit value leaves it unchanged. -/
def enumCounterStep (v : Int) (e : EnumSpec) : Int :=
  match e.evalue with
  | some w => if w > v then w + 1 else v
  | none => v + 1

/-- The value of the running counter after a sequence of enum statements. -/
def enumCounter (es : List EnumSpec) : Int :=
  es.foldl enumCounterStep 0

/-- Successful runs of the enum loop: every step passes its checks, the
result has one entry per enum, and an enum without explicit value receives
exactly the running counter. -/
theorem fillEnumsAux_ok_spec :
    ∀ (es : List EnumSpec) (acc : List (String × Int)) (v : Int) (r : List (String × Int)),
      fillEnumsAux es acc v = .ok r →
      r.length = es.length ∧
      (∀ i, i < es.length → (es.getD i default).evalue = none →
        (r.getD i default).2 = (es.take i).foldl enumCounterStep v) := by
  intro es
  induction es with
  | nil =>
    intro acc v r h
    simp only [fillEnumsAux] at h
    cases h
    exact ⟨rfl, by intro i hi; exact absurd hi (by simp)⟩
  | cons e rest ih =>
    intro acc v r h
    rw [fillEnumsAux] at h
    split at h
    · exact absurd h (by simp)
    split at h
    · exact absurd h (by simp)
    split at h
    · exact absurd h (by simp)
    split at h
    next w hv =>
      split at h
      · exact absurd h (by simp)
      split at h
      next h5 =>
        obtain ⟨s, hs, hr⟩ := except_map_ok _ _ _ h
        obtain ⟨hlen, hvals⟩ := ih _ _ s hs
        subst hr
        refine ⟨by simpa using hlen, ?_⟩
        intro i hi hnone
        cases i with
        | zero => simp [hv] at hnone
        | succ j =>
          have hj : j < rest.length := by simpa using hi
          have hnone' : (rest.getD j default).evalue = none := by simpa using hnone
          have hstep : enumCounterStep v e = w + 1 := by
            simp [enumCounterStep, hv, h5]
          have hval := hvals j hj hnone'
          simp only [List.take_succ_cons, List.foldl_cons, hstep]
          simpa using hval
      next h5 =>
        split at h
        · exact absurd h (by simp)
        obtain ⟨s, hs, hr⟩ := except_map_ok _ _ _ h
        obtain ⟨hlen, hvals⟩ := ih _ _ s hs
        subst hr
        refine ⟨by simpa using hlen, ?_⟩
        intro i hi hnone
        cases i with
        | zero => simp [hv] at hnone
        | succ j =>
          have hj : j < rest.length := by simpa using hi
          have hnone' : (rest.getD j default).evalue = none := by simpa using hnone
          have hstep : enumCounterStep v e = v := by
            simp [enumCounterStep, hv, h5]
          have hval := hvals j hj hnone'
          simp only [List.take_succ_cons, List.foldl_cons, hstep]
          simpa using hval
    next hv =>
      split at h
      · exact absurd h (by simp)
      obtain ⟨s, hs, hr⟩ := except_map_ok _ _ _ h
      obtain ⟨hlen, hvals⟩ := ih _ _ s hs
      subst hr
      refine ⟨by simpa using hlen, ?_⟩
      intro i hi hnone
      cases i with
      | zero => simp
      | succ j =>
        have hj : j < rest.length := by simpa using hi
        have hnone' : (rest.getD j default).evalue = none := by simpa using hnone
        have hstep : enumCounterStep v e = v + 1 := by
          simp [enumCounterStep, hv]
        have hval := hvals j hj hnone'
        simp only [List.take_succ_cons, List.foldl_cons, hstep]
        simpa using hval

/-- Successful runs of the enum loop never let an explicit `value` repeat a
value assigned to any earlier enum: an explicit value at most the counter is
dup-checked against all earlier entries, and an explicit value above the
counter exceeds every earlier entry (all of which stay at most the counter). -/
theorem fillEnumsAux_explicit_fresh :
    ∀ (es : List EnumSpec) (acc : List (String × Int)) (v : Int) (r : List (String × Int)),
      fillEnumsAux es acc v = .ok r →
      (∀ p ∈ acc, p.2 ≤ v) →
      ∀ j, j < es.length → ∀ w, (es.getD j default).evalue = some w →
        (∀ p ∈ acc, p.2 ≠ w) ∧ (∀ i, i < j → (r.getD i default).2 ≠ w) := by
  intro es
  induction es with
  | nil =>
    intro acc v r h hacc j hj
    exact absurd hj (by simp)
  | cons e rest ih =>
    intro acc v r h hacc j hj w hw
    rw [fillEnumsAux] at h
    split at h
    · exact absurd h (by simp)
    split at h
    · exact absurd h (by simp)
    split at h
    · exact absurd h (by simp)
    split at h
    next w0 hv =>
      split at h
      · exact absurd h (by simp)
      split at h
      next h5 =>
        obtain ⟨s, hs, hr⟩ := except_map_ok _ _ _ h
        have hacc' : ∀ p ∈ acc ++ [(e.ename, w0)], p.2 ≤ w0 + 1 := by
          intro p hp
          rcases List.mem_append.mp hp with hp | hp
          · exact le_trans (hacc p hp) (by omega)
          · have hpe : p = (e.ename, w0) := by simpa using hp
            rw [hpe]
            show w0 ≤ w0 + 1
            omega
        subst hr
        cases j with
        | zero =>
          have hww : w = w0 := by
            simp only [List.getD_cons_zero] at hw
            rw [hv] at hw
            exact (Option.some_inj.mp hw).symm
          subst hww
          refine ⟨fun p hp => ?_, fun i hi => absurd hi (by omega)⟩
          have := hacc p hp
          omega
        | succ j' =>
          have hj' : j' < rest.length := by simpa using hj
          have hw' : (rest.getD j' default).evalue = some w := by simpa using hw
          obtain ⟨haccw, hsw⟩ := ih _ _ s hs hacc' j' hj' w hw'
          refine ⟨fun p hp => haccw p (List.mem_append.mpr (Or.inl hp)), ?_⟩
          intro i hi
          cases i with
          | zero =>
            have : (e.ename, w0) ∈ acc ++ [(e.ename, w0)] := by simp
            simpa using haccw _ this
          | succ i' =>
            have hi' : i' < j' := by omega
            simpa using hsw i' hi'
      next h5 =>
        split at h
        · exact absurd h (by simp)
        next h6 =>
        obtain ⟨s, hs, hr⟩ := except_map_ok _ _ _ h
        have hw0v : w0 ≤ v := by omega
        have hacc' : ∀ p ∈ acc ++ [(e.ename, w0)], p.2 ≤ v := by
          intro p hp
          rcases List.mem_append.mp hp with hp | hp
          · exact hacc p hp
          · have hpe : p = (e.ename, w0) := by simpa using hp
            rw [hpe]
            show w0 ≤ v
            omega
        subst hr
        cases j with
        | zero =>
          have hww : w = w0 := by
            simp only [List.getD_cons_zero] at hw
            rw [hv] at hw
            exact (Option.some_inj.mp hw).symm
          subst hww
          refine ⟨fun p hp => ?_, fun i hi => absurd hi (by omega)⟩
          intro hpw
          exact h6 (List.any_eq_true.mpr ⟨p, hp, by simp [hpw]⟩)
        | succ j' =>
          have hj' : j' < rest.length := by simpa using hj
          have hw' : (rest.getD j' default).evalue = some w := by simpa using hw
          obtain ⟨haccw, hsw⟩ := ih _ _ s hs hacc' j' hj' w hw'
          refine ⟨fun p hp => haccw p (List.mem_append.mpr (Or.inl hp)), ?_⟩
          intro i hi
          cases i with
          | zero =>
            have : (e.ename, w0) ∈ acc ++ [(e.ename, w0)] := by simp
            simpa using haccw _ this
          | succ i' =>
            have hi' : i' < j' := by omega
            simpa using hsw i' hi'
    next hv =>
      split at h
      · exact absurd h (by simp)
      obtain ⟨s, hs, hr⟩ := except_map_ok _ _ _ h
      have hacc' : ∀ p ∈ acc ++ [(e.ename, v)], p.2 ≤ v + 1 := by
        intro p hp
        rcases List.mem_append.mp hp with hp | hp
        · exact le_trans (hacc p hp) (by omega)
        · have hpe : p = (e.ename, v) := by simpa using hp
          rw [hpe]
          show v ≤ v + 1
          omega
      subst hr
      cases j with
      | zero =>
        rw [List.getD_cons_zero, hv] at hw
        exact absurd hw (by simp)
      | succ j' =>
        have hj' : j' < rest.length := by simpa using hj
        have hw' : (rest.getD j' default).evalue = some w := by simpa using hw
        obtain ⟨haccw, hsw⟩ := ih _ _ s hs hacc' j' hj' w hw'
        refine ⟨fun p hp => haccw p (List.mem_append.mpr (Or.inl hp)), ?_⟩
        intro i hi
        cases i with
        | zero =>
          have : (e.ename, v) ∈ acc ++ [(e.ename, v)] := by simp
          simpa using haccw _ this
        | succ i' =>
          have hi' : i' < j' := by omega
          simpa using hsw i' hi'

/-- C2 (counterexample): the claim that an enum without an explicit value is
assigned one greater than the highest previously assigned value fails: for
enums a (no value), b (value 1), c (no value), the code assigns c the running
counter 1 (which even collides with b), not max(0,1)+1 = 2. -/
theorem enum_auto_not_highest_plus_one :
    fillEnums [⟨"a", none⟩, ⟨"b", some 1⟩, ⟨"c", none⟩] = .ok [("a", 0), ("b", 1), ("c", 1)] ∧
    (([("a", (0 : Int)), ("b", 1), ("c", 1)].getD 2 default).2 ≠ max (0 : Int) 1 + 1) :=
  ⟨by rfl, by decide⟩

/-- C2 (amended): an enum without an explicit value child is assigned the
current value of a running counter that starts at 0, is set to w+1 by any
enum value w (explicit or automatic) strictly greater than the counter, and
is incremented after each automatic assignment; the first enum without an
explicit value when no enum precedes it therefore gets 0, and enums
a (no value), b (value 5), c (no value) receive values 0, 5, 6. -/
theorem enum_auto_assigns_counter :
    (∀ (es : List EnumSpec) (r : List (String × Int)), fillEnums es = .ok r →
      ∀ i, i < es.length → (es.getD i default).evalue = none →
        (r.getD i default).2 = enumCounter (es.take i))
    ∧ fillEnums [⟨"a", none⟩, ⟨"b", some 5⟩, ⟨"c", none⟩] = .ok [("a", 0), ("b", 5), ("c", 6)] := by
  constructor
  · intro es r h i hi hnone
    exact (fillEnumsAux_ok_spec es [] 0 r h).2 i hi hnone
  · rfl

/-- C2 witness: the amended statement applied to the concrete enumeration
a (no value), b (value 5), c (no value) at index 2. -/
theorem enum_auto_assigns_counter_witness :
    ([("a", (0 : Int)), ("b", 5), ("c", 6)].getD 2 default).2
      = enumCounter ([⟨"a", none⟩, ⟨"b", some 5⟩, ⟨"c", none⟩].take 2) :=
  enum_auto_assigns_counter.1 [⟨"a", none⟩, ⟨"b", some 5⟩, ⟨"c", none⟩]
    [("a", 0), ("b", 5), ("c", 6)] (by rfl) 2 (by decide) (by rfl)

/-- C3 (counterexample): the claim that any value collision fails compilation
is false for auto-assigned values: enums a (value 5), b (value 6),
c (no value) compile successfully and c receives 6, the same value as b. -/
theorem enum_auto_collision_undetected :
    fillEnums [⟨"a", some 5⟩, ⟨"b", some 6⟩, ⟨"c", none⟩] = .ok [("a", 5), ("b", 6), ("c", 6)] ∧
    (([("a", (5 : Int)), ("b", 6), ("c", 6)].getD 1 default).2
      = ([("a", (5 : Int)), ("b", 6), ("c", 6)].getD 2 default).2) :=
  ⟨by rfl, by rfl⟩

/-- C3 (amended): an explicit enum value that equals a value already assigned
to an earlier enum of the same enumeration fails with the duplicate-enum-value
error, so in every successful compilation each explicitly-valued enum differs
from all earlier enums; in particular enums a=1, b=1 fail with that code.
(Collisions created by an auto-assigned value are not detected.) -/
theorem enum_explicit_collision_rejected :
    (∀ (es : List EnumSpec) (r : List (String × Int)), fillEnums es = .ok r →
      ∀ j, j < es.length → ∀ w, (es.getD j default).evalue = some w →
        ∀ i, i < j → (r.getD i default).2 ≠ w)
    ∧ fillEnums [⟨"a", some 1⟩, ⟨"b", some 1⟩] = .error .dupValue := by
  constructor
  · intro es r h j hj w hw i hij
    exact (fillEnumsAux_explicit_fresh es [] 0 r h (by simp) j hj w hw).2 i hij
  · rfl

/-- C3 witness: the amended statement applied to the concrete enumeration
a (no value, gets 0), b (explicit 5), showing a's value differs from b's. -/
theorem enum_explicit_collision_rejected_witness :
    (([("a", (0 : Int)), ("b", 5)].getD 0 default).2 ≠ 5) :=
  enum_explicit_collision_rejected.1 [⟨"a", none⟩, ⟨"b", some 5⟩]
    [("a", 0), ("b", 5)] (by rfl) 1 (by decide) 5 (by rfl) 0 (by decide)

/-! ## Common statement parsing (`read_yin_common`, lines 855-913): config

For a data-definition node (`ext` nonzero) `read_yin_common` walks the
`config` children OR-ing bits into `mnode->flags`, then, when no config bit
is set, ORs in the parent's config bits, or `LY_NODE_CONFIG_W` at top level.
The two config bits are modelled as a pair of Booleans; their numeric values
live in tree headers outside this tree and only their distinctness matters. -/

/-- The `LY_NODE_CONFIG_W` / `LY_NODE_CONFIG_R` bit pair of `mnode->flags`. -/
structure CfgFlags where
  cfgW : Bool
  cfgR : Bool
deriving Repr, DecidableEq, Inhabited

/-- Config mask of a freshly calloc-ed node: both bits clear. -/
def cfgNone : CfgFlags := ⟨false, false⟩

/-- `LY_NODE_CONFIG_W` alone (read-write configuration). -/
def cfgW : CfgFlags := ⟨true, false⟩

/-- `LY_NODE_CONFIG_R` alone (read-only state). -/
def cfgR : CfgFlags := ⟨false, true⟩

/-- Processing of one `config` child by `read_yin_common` (lines 888-894):
as written in the source BOTH branches compare the attribute value against
"false", so the second branch (presumably meant for "true") never runs. -/
def configStep (f : CfgFlags) (value : String) : CfgFlags :=
  if value = "false" then { f with cfgR := true }
  else if value = "false" then { f with cfgW := true }
  else f

/-- The config mask a data node ends up with in `read_yin_common` with
`ext` set: the `config` children are folded over the empty mask and, when no
config bit was set, the parent's mask is inherited (W at top level). -/
def readYinCommonConfig (cfgValues : List String) (parentCfg : Option CfgFlags) : CfgFlags :=
  let f := cfgValues.foldl configStep cfgNone
  if f.cfgW = false ∧ f.cfgR = false then
    match parentCfg with
    | some p => ⟨p.cfgW, p.cfgR⟩
    | none => { f with cfgW := true }
  else f

/-- C4 (code evaluated at the failing input): an explicit `config` "true" on
a node whose parent is read-only yields R, not W, because both branches of
the config processing in `read_yin_common` test the value against "false";
"true" sets no bit and the node falls through to parent inheritance.  The
other parts of the claim do hold: "false" yields R, a node without a config
statement inherits the parent's flag, and defaults to W at top level. -/
theorem config_true_statement_ignored :
    readYinCommonConfig ["true"] (some cfgR) = cfgR ∧ cfgR ≠ cfgW ∧
    readYinCommonConfig ["false"] (some cfgW) = cfgR ∧
    readYinCommonConfig [] (some cfgR) = cfgR ∧
    readYinCommonConfig [] none = cfgW :=
  ⟨by rfl, by decide, by rfl, by rfl, by rfl⟩

/-! ## Identity definitions (`fill_yin_identity`, `find_base_ident`,
`find_base_ident_sub`, and the middle pass of `read_sub_module`)

Identity statements are processed in document order in the middle pass of
`read_sub_module`; `module->ident_size` is incremented only after
`fill_yin_identity` returns, so the linear scan of `find_base_ident_sub`
(lines 409-418) sees exactly the identities already read.  We model the
same-module, unprefixed case of `find_base_ident` (no imports, no
submodules): `done` is the already-filled prefix module->ident[0..ident_size). -/

/-- A compiled identity: name, resolved base (index into the module's
identity array), and the `der` list of derived identities (indices, in
append order). -/
structure Ident where
  iname : String
  ibase : Option Nat
  ider : List Nat
deriving Repr, DecidableEq, Inhabited

/-- The linear scan of `find_base_ident_sub` over module->ident[0..ident_size):
index of the first already-read identity with the given name. -/
def findBaseIdentSub : List Ident → String → Option Nat
  | [], _ => none
  | id :: rest, basename =>
    if id.iname = basename then some 0
    else (findBaseIdentSub rest basename).map (· + 1)

/-- Append derived identity `k` to the `der` list of the identity at index
`j` (the body of the while loop in `find_base_ident_sub`). -/
def setIdentDer : List Ident → Nat → Nat → List Ident
  | [], _, _ => []
  | id :: rest, 0, k => { id with ider := id.ider ++ [k] } :: rest
  | id :: rest, j + 1, k => id :: setIdentDer rest j k

/-- The while loop of `find_base_ident_sub`: walk the base chain upward from
the resolved base, appending the new identity `k` to each ancestor's `der`
list.  `fuel` bounds the walk; the list length suffices because every
resolved base index is strictly below its identity's index. -/
def appendDerWalk : List Ident → Nat → Nat → Option Nat → List Ident
  | idents, _, _, none => idents
  | idents, _, 0, some _ => idents
  | idents, k, fuel + 1, some j =>
    appendDerWalk (setIdentDer idents j k) k fuel ((idents.getD j default).ibase)

/-- The identity middle pass of `read_sub_module` restricted to one module:
each `identity` statement (name, optional unprefixed base name) is filled by
`fill_yin_identity`; a `base` child that names no already-read identity
raises `VE_INARG` and fails the module. -/
def fillIdentitiesAux : List (String × Option String) → List Ident → Except Unit (List Ident)
  | [], done => .ok done
  | sp :: rest, done =>
    if sp.1 = "" then .error ()
    else
      match sp.2 with
      | none => fillIdentitiesAux rest (done ++ [⟨sp.1, none, []⟩])
      | some b =>
        match findBaseIdentSub done b with
        | none => .error ()
        | some j =>
          fillIdentitiesAux rest
            (appendDerWalk (done ++ [⟨sp.1, some j, []⟩]) done.length (done.length + 1) (some j))

/-- Reading all identities of a module, starting from the empty array. -/
def fillIdentities (specs : List (String × Option String)) : Except Unit (List Ident) :=
  fillIdentitiesAux specs []

/-- `getD` at an index inside the left part of an append. -/
theorem getD_append_lt {α : Type} [Inhabited α] :
    ∀ (l m : List α) (i : Nat), i < l.length →
      (l ++ m).getD i default = l.getD i default := by
  intro l
  induction l with
  | nil => intro m i h; simp at h
  | cons x rest ih =>
    intro m i h
    cases i with
    | zero => simp
    | succ i' => simpa using ih m i' (by simpa using h)

/-- `getD` at the first index past the left part of an append. -/
theorem getD_append_len {α : Type} [Inhabited α] :
    ∀ (l : List α) (x : α) (m : List α), (l ++ x :: m).getD l.length default = x := by
  intro l
  induction l with
  | nil => intro x m; simp
  | cons y rest ih => intro x m; simpa using ih x m

/-- `setIdentDer` changes only the `der` list: length, names and bases are
untouched. -/
theorem setIdentDer_preserves :
    ∀ (l : List Ident) (j k i : Nat),
      (setIdentDer l j k).length = l.length ∧
      ((setIdentDer l j k).getD i default).iname = (l.getD i default).iname ∧
      ((setIdentDer l j k).getD i default).ibase = (l.getD i default).ibase := by
  intro l
  induction l with
  | nil => intro j k i; simp [setIdentDer]
  | cons x rest ih =>
    intro j k i
    cases j with
    | zero =>
      cases i with
      | zero => simp [setIdentDer]
      | succ i' => simp [setIdentDer]
    | succ j' =>
      cases i with
      | zero =>
        refine ⟨?_, by simp [setIdentDer], by simp [setIdentDer]⟩
        simpa [setIdentDer] using (ih j' k 0).1
      | succ i' =>
        have h := ih j' k i'
        refine ⟨by simpa [setIdentDer] using h.1, ?_, ?_⟩
        · simpa [setIdentDer] using h.2.1
        · simpa [setIdentDer] using h.2.2

/-- The `der`-walk changes only `der` lists: length, names and bases are
untouched. -/
theorem appendDerWalk_preserves :
    ∀ (fuel : Nat) (idents : List Ident) (k : Nat) (ob : Option Nat),
      (appendDerWalk idents k fuel ob).length = idents.length ∧
      ∀ i, ((appendDerWalk idents k fuel ob).getD i default).iname = (idents.getD i default).iname ∧
        ((appendDerWalk idents k fuel ob).getD i default).ibase = (idents.getD i default).ibase := by
  intro fuel
  induction fuel with
  | zero =>
    intro idents k ob
    cases ob with
    | none => simp [appendDerWalk]
    | some j => simp [appendDerWalk]
  | succ n ih =>
    intro idents k ob
    cases ob with
    | none => simp [appendDerWalk]
    | some j =>
      rw [appendDerWalk]
      obtain ⟨hlen, hpt⟩ := ih (setIdentDer idents j k) k ((idents.getD j default).ibase)
      refine ⟨by rw [hlen]; exact (setIdentDer_preserves idents j k 0).1, ?_⟩
      intro i
      obtain ⟨hn, hb⟩ := hpt i
      obtain ⟨_, hn', hb'⟩ := setIdentDer_preserves idents j k i
      exact ⟨by rw [hn, hn'], by rw [hb, hb']⟩

/-- A successful scan of `find_base_ident_sub` returns an in-range index
whose identity carries the requested name. -/
theorem findBaseIdentSub_spec :
    ∀ (l : List Ident) (b : String) (j : Nat),
      findBaseIdentSub l b = some j → j < l.length ∧ (l.getD j default).iname = b := by
  intro l
  induction l with
  | nil => intro b j h; simp [findBaseIdentSub] at h
  | cons x rest ih =>
    intro b j h
    rw [findBaseIdentSub] at h
    split at h
    next heq =>
      cases h
      exact ⟨by simp, by simpa using heq⟩
    next heq =>
      cases hr : findBaseIdentSub rest b with
      | none => rw [hr] at h; simp at h
      | some j' =>
        rw [hr] at h
        simp only [Option.map_some'] at h
        obtain ⟨hlt, hname⟩ := ih b j' hr
        cases h
        exact ⟨by simpa using hlt, by simpa using hname⟩

/-- The identity pass only appends: names and bases of already-filled
identities survive, and the result has one entry per statement. -/
theorem fillIdentitiesAux_preserves :
    ∀ (specs : List (String × Option String)) (done : List Ident) (r : List Ident),
      fillIdentitiesAux specs done = .ok r →
      r.length = done.length + specs.length ∧
      ∀ i, i < done.length →
        ((r.getD i default).iname = (done.getD i default).iname ∧
         (r.getD i default).ibase = (done.getD i default).ibase) := by
  intro specs
  induction specs with
  | nil =>
    intro done r h
    simp only [fillIdentitiesAux] at h
    cases h
    exact ⟨by simp, fun i _ => ⟨rfl, rfl⟩⟩
  | cons sp rest ih =>
    intro done r h
    rw [fillIdentitiesAux] at h
    split at h
    · exact absurd h (by simp)
    split at h
    next hb =>
      obtain ⟨hlen, hpt⟩ := ih (done ++ [⟨sp.1, none, []⟩]) r h
      refine ⟨by rw [hlen]; simp only [List.length_append, List.length_cons, List.length_nil]; omega, ?_⟩
      intro i hi
      obtain ⟨hn, hbs⟩ := hpt i (by simp; omega)
      rw [hn, hbs, getD_append_lt done [⟨sp.1, none, []⟩] i hi]
      exact ⟨rfl, rfl⟩
    next b hb =>
      split at h
      · exact absurd h (by simp)
      next j hfind =>
        obtain ⟨hlen, hpt⟩ := ih _ r h
        obtain ⟨hwlen, hwpt⟩ :=
          appendDerWalk_preserves (done.length + 1) (done ++ [⟨sp.1, some j, []⟩]) done.length (some j)
        refine ⟨?_, ?_⟩
        · rw [hlen, hwlen]; simp; omega
        · intro i hi
          obtain ⟨hn, hbs⟩ := hpt i (by rw [hwlen]; simp; omega)
          obtain ⟨hwn, hwb⟩ := hwpt i
          rw [hn, hbs, hwn, hwb, getD_append_lt done [⟨sp.1, some j, []⟩] i hi]
          exact ⟨rfl, rfl⟩

/-- In a successful identity pass, every identity with a `base` statement
gets its base bound to an already-read (strictly earlier) identity of the
requested name. -/
theorem fillIdentitiesAux_base_spec :
    ∀ (specs : List (String × Option String)) (done : List Ident) (r : List Ident),
      fillIdentitiesAux specs done = .ok r →
      ∀ k, k < specs.length → ∀ b, (specs.getD k default).2 = some b →
        ∃ j, (r.getD (done.length + k) default).ibase = some j ∧ j < done.length + k ∧
          (r.getD j default).iname = b := by
  intro specs
  induction specs with
  | nil =>
    intro done r h k hk
    exact absurd hk (by simp)
  | cons sp rest ih =>
    intro done r h k hk b hb
    rw [fillIdentitiesAux] at h
    split at h
    · exact absurd h (by simp)
    split at h
    next hnone =>
      cases k with
      | zero =>
        rw [List.getD_cons_zero, hnone] at hb
        exact absurd hb (by simp)
      | succ k' =>
        have hk' : k' < rest.length := by simpa using hk
        have hb' : (rest.getD k' default).2 = some b := by simpa using hb
        obtain ⟨j, hj1, hj2, hj3⟩ := ih (done ++ [⟨sp.1, none, []⟩]) r h k' hk' b hb'
        refine ⟨j, ?_, ?_, hj3⟩
        · have : (done ++ [⟨sp.1, none, []⟩] : List Ident).length + k' = done.length + (k' + 1) := by
            simp; omega
          rwa [this] at hj1
        · have : (done ++ [⟨sp.1, none, []⟩] : List Ident).length + k' = done.length + (k' + 1) := by
            simp; omega
          omega
    next b0 hsome =>
      split at h
      · exact absurd h (by simp)
      next j0 hfind =>
        obtain ⟨hfj, hfn⟩ := findBaseIdentSub_spec done b0 j0 hfind
        have hwpres :=
          appendDerWalk_preserves (done.length + 1) (done ++ [⟨sp.1, some j0, []⟩]) done.length (some j0)
        have hpres := fillIdentitiesAux_preserves rest _ r h
        have hdlen :
            (appendDerWalk (done ++ [⟨sp.1, some j0, []⟩]) done.length (done.length + 1)
              (some j0)).length = done.length + 1 := by
          rw [hwpres.1]; simp
        cases k with
        | zero =>
          have hbb : b0 = b := by
            rw [List.getD_cons_zero, hsome] at hb
            exact Option.some_inj.mp hb
          subst hbb
          refine ⟨j0, ?_, by omega, ?_⟩
          · obtain ⟨_, hbs⟩ := hpres.2 done.length (by omega)
            rw [Nat.add_zero, hbs, (hwpres.2 done.length).2,
              getD_append_len done ⟨sp.1, some j0, []⟩ []]
          · obtain ⟨hn, _⟩ := hpres.2 j0 (by omega)
            rw [hn, (hwpres.2 j0).1, getD_append_lt done [⟨sp.1, some j0, []⟩] j0 hfj, hfn]
        | succ k' =>
          have hk' : k' < rest.length := by simpa using hk
          have hb' : (rest.getD k' default).2 = some b := by simpa using hb
          obtain ⟨j, hj1, hj2, hj3⟩ := ih _ r h k' hk' b hb'
          rw [hdlen] at hj1 hj2
          have hidx : done.length + (k' + 1) = done.length + 1 + k' := by omega
          refine ⟨j, ?_, by omega, hj3⟩
          rw [hidx]
          exact hj1

/-- C1 (counterexample): an identity whose base names an identity declared
later in the same module is not found (the scan is limited to identities
already read: ident_size is incremented only after fill_yin_identity), so
the module fails to compile instead of binding the forward reference. -/
theorem identity_forward_reference_fails :
    fillIdentities [("a", some "b"), ("b", none)] = .error () :=
  by rfl

/-- C1 (amended): identity base references are resolved immediately as each
identity of the module is read, scanning only the identities already read;
an identity whose base names an earlier-declared identity has its base
pointer bound to such an identity (and is recorded in the base's derived
list), while a base naming only a later-declared identity fails compilation
of the module with the invalid-argument error. -/
theorem identity_base_bound_to_earlier :
    (∀ (specs : List (String × Option String)) (r : List Ident) (k : Nat) (b : String),
      fillIdentities specs = .ok r → k < specs.length → (specs.getD k default).2 = some b →
      (r.getD k default).ibase ≠ none ∧
      ((r.getD k default).ibase.getD 0) < k ∧
      (r.getD ((r.getD k default).ibase.getD 0) default).iname = b)
    ∧ fillIdentities [("b", none), ("a", some "b")]
        = .ok [⟨"b", none, [1]⟩, ⟨"a", some 0, []⟩] := by
  constructor
  · intro specs r k b h hk hb
    obtain ⟨j, hj1, hj2, hj3⟩ := fillIdentitiesAux_base_spec specs [] r h k hk b hb
    simp only [List.length_nil, Nat.zero_add] at hj1 hj2
    rw [hj1]
    exact ⟨by simp, by simpa using hj2, by simpa using hj3⟩
  · rfl

/-- C1 witness: the amended statement applied to the module declaring
identity b, then identity a with base b. -/
theorem identity_base_bound_to_earlier_witness :
    (([⟨"b", none, [1]⟩, ⟨"a", some 0, []⟩] : List Ident).getD 1 default).ibase ≠ none ∧
    ((([⟨"b", none, [1]⟩, ⟨"a", some 0, []⟩] : List Ident).getD 1 default).ibase.getD 0) < 1 ∧
    (([⟨"b", none, [1]⟩, ⟨"a", some 0, []⟩] : List Ident).getD
      ((([⟨"b", none, [1]⟩, ⟨"a", some 0, []⟩] : List Ident).getD 1 default).ibase.getD 0)
      default).iname = "b" :=
  identity_base_bound_to_earlier.1 [("b", none), ("a", some "b")]
    [⟨"b", none, [1]⟩, ⟨"a", some 0, []⟩] 1 "b" (by rfl) (by decide) (by rfl)

/-! ## Module registration (`yin_read_module`, lines 1872-1922)

After `read_sub_module` succeeds, the context's module list is scanned for a
module with the same name; equal rev[0] dates (the latest revision, per the
source comment) or two empty revision arrays mean a duplicate, in which case
the function takes the error path — the parsed module is freed and nothing
was stored in the list — while a one-sided revision array means the modules
differ.  Only after the whole scan passes is the module stored at the first
free slot and `models.used` incremented. -/

/-- The registration-relevant view of a module: interned name and the
revision dates in document order (rev[0] first). -/
structure CtxModule where
  mname : String
  mrevs : List String
deriving Repr, DecidableEq, Inhabited

/-- The duplicate test applied to each registered module during the scan. -/
def isDupModule (reg m : CtxModule) : Bool :=
  if reg.mname = m.mname then
    match reg.mrevs, m.mrevs with
    | [], [] => true
    | [], _ :: _ => false
    | _ :: _, [] => false
    | r :: _, s :: _ => r = s
  else false

/-- Registration of a parsed module: the duplicate scan, then storing the
module; on a duplicate the registered list is returned unchanged together
with `false` (the module is freed on the error path). -/
def registerModule (ctx : List CtxModule) (m : CtxModule) : List CtxModule × Bool :=
  if ctx.any (fun reg => isDupModule reg m) then (ctx, false)
  else (ctx ++ [m], true)

/-- Every module duplicates itself under the registration test (same name;
either both revision arrays empty or equal rev[0]). -/
theorem isDupModule_refl (m : CtxModule) : isDupModule m m = true := by
  unfold isDupModule
  rw [if_pos rfl]
  cases m.mrevs with
  | nil => rfl
  | cons r t => simp

/-- C6: registering a module whose name and latest revision (rev[0], or no
revisions on both sides) equal those of an already-registered module fails
and leaves the context's module list exactly as it was; in particular
registering the same module into a fresh context twice succeeds the first
time and fails the second, with the list identical to the state after the
first success. -/
theorem register_duplicate_rejected :
    (∀ (ctx : List CtxModule) (m reg : CtxModule), reg ∈ ctx → isDupModule reg m = true →
      registerModule ctx m = (ctx, false))
    ∧ (∀ m : CtxModule, registerModule [] m = ([m], true) ∧
        registerModule [m] m = ([m], false)) := by
  constructor
  · intro ctx m reg hmem hdup
    unfold registerModule
    rw [if_pos (List.any_eq_true.mpr ⟨reg, hmem, by simpa using hdup⟩)]
  · intro m
    refine ⟨by simp [registerModule], ?_⟩
    simp [registerModule, isDupModule_refl]

/-- C6 witness: the duplicate rejection applied to a context holding module
m with latest revision 2015-01-01 and the same module again. -/
theorem register_duplicate_rejected_witness :
    registerModule [⟨"m", ["2015-01-01"]⟩] ⟨"m", ["2015-01-01"]⟩
      = ([⟨"m", ["2015-01-01"]⟩], false) :=
  register_duplicate_rejected.1 [⟨"m", ["2015-01-01"]⟩] ⟨"m", ["2015-01-01"]⟩
    ⟨"m", ["2015-01-01"]⟩ (by simp) (isDupModule_refl _)

/-! ## Context module-list growth (`yin_read_module`, lines 1873-1884)

When `ctx->models.used == ctx->models.size`, the list is grown with
`realloc(ctx->models.list, ctx->models.size * 2)` — the byte count handed to
realloc is `size * 2`, not `size * 2 * sizeof(void *)` — after which the
code null-initialises slots size .. size*2-1 and sets `models.size *= 2`.
Modelled at byte level on an LP64 platform (sizeof(void *) == 8). -/

/-- sizeof(void *) on an LP64 platform. -/
def ptrBytes : Nat := 8

/-- The byte count the growth passes to realloc: `ctx->models.size * 2`. -/
def growRequestBytes (size : Nat) : Nat := size * 2

/-- The number of module-pointer slots the reallocated block holds. -/
def growSlotsAllocated (size : Nat) : Nat := growRequestBytes size / ptrBytes

/-- The slot indices the growth loop null-initialises:
`for (i = ctx->models.size; i < ctx->models.size * 2; i++)`. -/
def growInitIndices (size : Nat) : List Nat := List.range' size size

/-- The element capacity the code records afterwards: `models.size *= 2`. -/
def growNewSizeField (size : Nat) : Nat := size * 2

/-- C10 (code evaluated at the failing input): growing a full module list of
size 8 on an LP64 platform requests 16 bytes — 2 pointer slots — from
realloc, not the 16 slots (128 bytes) the claim requires; the first index
the initialisation loop writes, 8, already lies outside the 2 allocated
slots, so the stored pointers are not all preserved in validly allocated
memory and the new slots are not validly null-initialised. -/
theorem context_growth_under_allocates :
    growSlotsAllocated 8 = 2 ∧ growNewSizeField 8 = 16 ∧
    growRequestBytes 8 ≠ growNewSizeField 8 * ptrBytes ∧
    8 ∈ growInitIndices 8 ∧ ¬(8 < growSlotsAllocated 8) :=
  ⟨by rfl, by rfl, by decide, by decide, by decide⟩

/-! ## Type resolution (`find_superior_type`, lines 310-401; `fill_yin_type`
lines 535-561; `fill_yin_typedef` lines 734-784; `read_yin_leaf` lines
964-1000)

`find_superior_type` tries, for an unprefixed name: the built-in table
first, then the typedef tables of container/list/grouping ancestors walking
upward, then the module's top-level typedefs.  At module level typedefs are
filled in document order and `module->tpdf_size` is incremented only after
each `fill_yin_typedef` returns, so the top-level scan sees only the
typedefs already read.  By contrast, `read_yin_container`/`list`/`grouping`
set the LOCAL `tpdf_size` to the full count before filling any entry, so a
local table is visible with its full size (and the typedef currently being
filled already carries its name, which is interned before its `type` child
is processed). -/

/-- Modelled from the spec: the canonical names of the built-in types of the
`ly_types` table, which lives in yang_types.c, outside this tree; the list
follows the spec's enumeration of base kinds (RFC 6020 built-ins). -/
def builtinNames : List String :=
  ["binary", "bits", "boolean", "decimal64", "empty", "enumeration",
   "identityref", "instance-identifier", "int8", "int16", "int32", "int64",
   "leafref", "string", "uint8", "uint16", "uint32", "uint64", "union"]

/-- A resolved derivation: a built-in descriptor or a module-level typedef
(index into module->tpdf). -/
inductive Der where
  | builtin (b : String)
  | tpdf (j : Nat)
deriving Repr, DecidableEq, Inhabited

/-- The linear scan over the already-read module-level typedef names. -/
def findTpdfIdx : List (String × Der) → String → Option Nat
  | [], _ => none
  | t :: rest, tname => if t.1 = tname then some 0 else (findTpdfIdx rest tname).map (· + 1)

/-- `find_superior_type` for an unprefixed name at module level (parent
NULL, no submodules): built-ins first, then module->tpdf[0..tpdf_size). -/
def findSuperiorTypeTop (done : List (String × Der)) (tname : String) : Option Der :=
  if builtinNames.contains tname then some (.builtin tname)
  else (findTpdfIdx done tname).map .tpdf

/-- The module-level typedef middle pass of `read_sub_module`: each typedef
(name, base type name) is filled by `fill_yin_typedef`; `fill_yin_type`
fails with `VE_INARG` when no superior type is found, and
`fill_yin_typedef` also rejects a typedef left without derivation. -/
def fillTypedefsAux : List (String × String) → List (String × Der) → Except Unit (List (String × Der))
  | [], done => .ok done
  | t :: rest, done =>
    match findSuperiorTypeTop done t.2 with
    | none => .error ()
    | some d => fillTypedefsAux rest (done ++ [(t.1, d)])

/-- Reading all module-level typedefs, starting from the empty array. -/
def fillTypedefs (specs : List (String × String)) : Except Unit (List (String × Der)) :=
  fillTypedefsAux specs []

/-- Follow derivation pointers through the typedef array; the result is the
built-in name the chain reaches within `fuel` steps, if any. -/
def chaseDer (tpdfs : List (String × Der)) : Nat → Der → Option String
  | _, .builtin b => some b
  | 0, .tpdf _ => none
  | fuel + 1, .tpdf j => chaseDer tpdfs fuel (tpdfs.getD j default).2

/-- A successful typedef-name scan returns an in-range index. -/
theorem findTpdfIdx_lt :
    ∀ (l : List (String × Der)) (t : String) (j : Nat),
      findTpdfIdx l t = some j → j < l.length := by
  intro l
  induction l with
  | nil => intro t j h; simp [findTpdfIdx] at h
  | cons x rest ih =>
    intro t j h
    rw [findTpdfIdx] at h
    split at h
    · cases h; simp
    · cases hr : findTpdfIdx rest t with
      | none => rw [hr] at h; simp at h
      | some j' =>
        rw [hr] at h
        simp only [Option.map_some'] at h
        cases h
        have := ih t j' hr
        simpa using this

/-- The module-level pass only ever derives a typedef from a built-in or
from a strictly earlier typedef: the filled array satisfies the
index-decreasing invariant, and already-filled entries are unchanged. -/
theorem fillTypedefsAux_inv :
    ∀ (specs : List (String × String)) (done : List (String × Der)) (r : List (String × Der)),
      fillTypedefsAux specs done = .ok r →
      (∀ i, i < done.length → ∀ j, (done.getD i default).2 = .tpdf j → j < i) →
      (∀ i, i < done.length → r.getD i default = done.getD i default) ∧
      (∀ i, i < r.length → ∀ j, (r.getD i default).2 = .tpdf j → j < i) := by
  intro specs
  induction specs with
  | nil =>
    intro done r h hinv
    simp only [fillTypedefsAux] at h
    cases h
    exact ⟨fun i _ => rfl, hinv⟩
  | cons t rest ih =>
    intro done r h hinv
    rw [fillTypedefsAux] at h
    split at h
    · exact absurd h (by simp)
    next d hfind =>
      have hinv' : ∀ i, i < (done ++ [(t.1, d)]).length → ∀ j,
          ((done ++ [(t.1, d)]).getD i default).2 = .tpdf j → j < i := by
        intro i hi j hgd
        rcases Nat.lt_trichotomy i done.length with hlt | heq | hgt
        · rw [getD_append_lt done [(t.1, d)] i hlt] at hgd
          exact hinv i hlt j hgd
        · subst heq
          rw [getD_append_len done (t.1, d) []] at hgd
          rw [findSuperiorTypeTop] at hfind
          split at hfind
          next hbi =>
            cases hfind
            exact absurd hgd (by simp)
          next hbi =>
            cases hfj : findTpdfIdx done t.2 with
            | none => rw [hfj] at hfind; simp at hfind
            | some j0 =>
              rw [hfj] at hfind
              simp only [Option.map_some'] at hfind
              cases hfind
              have hjj : j0 = j := by injection hgd
              subst hjj
              exact findTpdfIdx_lt done t.2 j0 hfj
        · exact absurd hi (by simp only [List.length_append, List.length_cons,
            List.length_nil]; omega)
      obtain ⟨hext, hr⟩ := ih (done ++ [(t.1, d)]) r h hinv'
      refine ⟨?_, hr⟩
      intro i hi
      rw [hext i (by simp only [List.length_append, List.length_cons, List.length_nil]; omega),
        getD_append_lt done [(t.1, d)] i hi]

/-- Chasing derivations succeeds with any larger fuel once it succeeds. -/
theorem chaseDer_fuel_mono :
    ∀ (fuel : Nat) (tpdfs : List (String × Der)) (m : Nat) (d : Der),
      (chaseDer tpdfs fuel d).isSome = true →
      (chaseDer tpdfs (fuel + m) d).isSome = true := by
  intro fuel
  induction fuel with
  | zero =>
    intro tpdfs m d h
    cases d with
    | builtin b => simp [chaseDer]
    | tpdf j => simp [chaseDer] at h
  | succ n ih =>
    intro tpdfs m d h
    cases d with
    | builtin b => simp [chaseDer]
    | tpdf j =>
      have harith : n + 1 + m = (n + m) + 1 := by omega
      rw [harith]
      rw [chaseDer] at h ⊢
      exact ih tpdfs m _ h
  
/-- Under the index-decreasing invariant, chasing the derivation of entry
`k` reaches a built-in within `k + 1` steps. -/
theorem chaseDer_terminates :
    ∀ (k : Nat) (tpdfs : List (String × Der)),
      (∀ i, i < tpdfs.length → ∀ j, (tpdfs.getD i default).2 = .tpdf j → j < i) →
      k < tpdfs.length →
      (chaseDer tpdfs (k + 1) (tpdfs.getD k default).2).isSome = true := by
  intro k
  induction k using Nat.strong_induction_on with
  | _ k ihs =>
    intro tpdfs hinv hk
    cases hd : (tpdfs.getD k default).2 with
    | builtin b => simp [chaseDer]
    | tpdf j =>
      have hj : j < k := hinv k hk j hd
      have hjlen : j < tpdfs.length := by omega
      have hrec := ihs j hj tpdfs hinv hjlen
      rw [chaseDer]
      obtain ⟨m, hm⟩ : ∃ m, k = (j + 1) + m := ⟨k - (j + 1), by omega⟩
      rw [hm]
      exact chaseDer_fuel_mono (j + 1) tpdfs m _ hrec

/-- The child loop of `read_yin_leaf` (lines 982-989) restricted to the type
resolution it performs (at module level): every child whose element name is
"type" is resolved by `fill_yin_type` into `leaf->type` (overwriting any
earlier one); every other child is left untouched without any error; a
leaf with no "type" child keeps the calloc-ed null derivation, and the
function succeeds regardless. -/
def readYinLeafDerAux : List (String × String) → List (String × Der) → Option Der → Option (Option Der)
  | [], _, cur => some cur
  | c :: rest, mtpdfs, cur =>
    if c.1 = "type" then
      match findSuperiorTypeTop mtpdfs c.2 with
      | none => none
      | some d => readYinLeafDerAux rest mtpdfs (some d)
    else readYinLeafDerAux rest mtpdfs cur

/-- `read_yin_leaf` on a child list (element name, type-name attribute):
`some der` on success with the final `leaf->type.der`, `none` on failure. -/
def readYinLeafDer (mtpdfs : List (String × Der)) (children : List (String × String)) :
    Option (Option Der) :=
  readYinLeafDerAux children mtpdfs none

/-- A derivation as resolved by the ancestor-walk branch of
`find_superior_type`: a built-in, an entry of an ancestor's local typedef
table (table index walking upward, entry index), or a module-level typedef. -/
inductive LocalDer where
  | builtin (b : String)
  | localT (tbl idx : Nat)
  | modT (j : Nat)
deriving Repr, DecidableEq

/-- Scan of one local typedef table (names visible over the FULL size). -/
def findNameIdx : List String → String → Option Nat
  | [], _ => none
  | n :: rest, tname => if n = tname then some 0 else (findNameIdx rest tname).map (· + 1)

/-- The ancestor walk over the container/list/grouping typedef tables. -/
def findInTables : List (List String) → String → Option (Nat × Nat)
  | [], _ => none
  | tbl :: rest, tname =>
    match findNameIdx tbl tname with
    | some i => some (0, i)
    | none => (findInTables rest tname).map (fun p => (p.1 + 1, p.2))

/-- `find_superior_type` for an unprefixed name with a non-null parent:
built-ins first, then the ancestors' local typedef tables (each visible with
its full size, because the enclosing constructor sets `tpdf_size` to the
total count before filling, and each typedef's name is interned before its
`type` child is resolved), then the module's top-level typedefs. -/
def findSuperiorTypeLocal (tables : List (List String)) (mtpdfs : List (String × Der))
    (tname : String) : Option LocalDer :=
  if builtinNames.contains tname then some (.builtin tname)
  else
    match findInTables tables tname with
    | some p => some (.localT p.1 p.2)
    | none => (findTpdfIdx mtpdfs tname).map .modT

/-- C7 (counterexample): two violations at concrete inputs. (a) a leaf with
no `type` child — children only a description — is accepted by
`read_yin_leaf` with a null derivation although its base kind is not a
built-in. (b) a typedef `t` scoped to a container (local table [["t"]],
already full-sized and named) resolving `type name="t"` finds ITSELF
(table 0, entry 0), a self-derivation; chasing that derivation never
reaches a built-in, not even with the fuel bound that suffices for every
well-formed module-level chain. -/
theorem type_derivation_claim_fails :
    readYinLeafDer [] [("description", "d")] = some none ∧
    findSuperiorTypeLocal [["t"]] [] "t" = some (.localT 0 0) ∧
    chaseDer [("t", Der.tpdf 0)] 1 (Der.tpdf 0) = none ∧
    chaseDer [("t", Der.tpdf 0)] 5 (Der.tpdf 0) = none :=
  ⟨by rfl, by rfl, by rfl, by rfl⟩

/-- C7 (amended): every type resolved through `fill_yin_type` receives a
non-nil derivation (resolution failure aborts with invalid-argument), and
for module-level typedefs — resolved against built-ins and the typedefs
already read only — every derivation chain of a successfully compiled
typedef array terminates at a built-in without a cycle, within k+1 steps
for the typedef at index k.  (A leaf whose statement has no `type` child,
however, compiles with a nil derivation, and a typedef scoped to a
container/list/grouping can derive from itself.) -/
theorem module_typedef_chains_terminate :
    ∀ (specs : List (String × String)) (r : List (String × Der)),
      fillTypedefs specs = .ok r →
      ∀ k, k < r.length → (chaseDer r (k + 1) (r.getD k default).2).isSome = true := by
  intro specs r h k hk
  have hinv := (fillTypedefsAux_inv specs [] r h (by intro i hi; simp at hi)).2
  exact chaseDer_terminates k r hinv hk

/-- C7 witness: the termination bound applied to the concrete module-level
typedefs t1 (type string) and t2 (type t1), at index 1. -/
theorem module_typedef_chains_terminate_witness :
    (chaseDer [("t1", Der.builtin "string"), ("t2", Der.tpdf 0)] 2
      (([("t1", Der.builtin "string"), ("t2", Der.tpdf 0)] : List (String × Der)).getD 1
        default).2).isSome = true :=
  module_typedef_chains_terminate [("t1", "string"), ("t2", "t1")]
    [("t1", Der.builtin "string"), ("t2", Der.tpdf 0)] (by rfl) 1 (by decide)

/-! ## Uses resolution (`read_yin_uses`, lines 1445-1548)

After `read_yin_common`, the referenced grouping name is split at the first
colon; a prefix equal to the module's own prefix is discarded.  With a
prefix: the import table is scanned (unknown prefix: `VE_INPREFIX`), then —
as written in the source — the CURRENT module's `module->data` is searched,
and finding nothing is `VE_INARG`.  Without a prefix: the ancestor loop
searches `parent->child` (the inner loop reads `parent`, not the walker
`par`), then the loop over `module->data` runs unconditionally, overwriting
any local match; NO error is raised when nothing is found, the function
attaches the node and returns it with `uses->grp` still NULL. -/

/-- Schema node kinds relevant to the compiler. -/
inductive NType where
  | container
  | leaf
  | leaflist
  | list
  | choice
  | uses
  | grouping
deriving Repr, DecidableEq, Inhabited

/-- A sibling-chain node as seen by the grouping searches. -/
structure GNode where
  gtype : NType
  gname : String
deriving Repr, DecidableEq, Inhabited

/-- First grouping with the given name along a sibling chain
(`mnode->nodetype == LY_NODE_GROUPING && !strcmp(mnode->name, name)`). -/
def findGrpIdx : List GNode → String → Option Nat
  | [], _ => none
  | n :: rest, nm =>
    if n.gtype = NType.grouping ∧ n.gname = nm then some 0
    else (findGrpIdx rest nm).map (· + 1)

/-- Where `read_yin_uses` found the referenced grouping. -/
inductive GrpRef where
  | topLevel (i : Nat)
  | localSibling (i : Nat)
deriving Repr, DecidableEq

/-- The surroundings of a `uses` statement. -/
structure UsesEnv where
  modPref : String
  impPrefs : List String
  modData : List GNode
  parentKids : Option (List GNode)
deriving Repr, DecidableEq

/-- The error exits of `read_yin_uses`: `VE_INPREFIX` and `VE_INARG`. -/
inductive UsesErr where
  | inPref
  | inArg
deriving Repr, DecidableEq

/-- `strchr(name, ':')`: the prefix before the first colon and the rest. -/
def splitColon (s : String) : Option (String × String) :=
  let pre := s.toList.takeWhile (fun c => c ≠ ':')
  if pre.length = s.toList.length then none
  else some (String.mk pre, String.mk ((s.toList.drop pre.length).drop 1))

/-- The unprefixed grouping search of `read_yin_uses` (lines 1513-1531):
the ancestor loop repeatedly searches the parent's children (the walker
`par` is never used by the inner loop), then the top-level loop overwrites
the result whenever `module->data` has a grouping of that name.  Finding
nothing is not an error. -/
def usesUnprefixedSearch (env : UsesEnv) (nm : String) : Option GrpRef :=
  let localGrp :=
    match env.parentKids with
    | none => none
    | some kids => (findGrpIdx kids nm).map GrpRef.localSibling
  match (findGrpIdx env.modData nm).map GrpRef.topLevel with
  | some g => some g
  | none => localGrp

/-- The grouping-resolution part of `read_yin_uses`: errors are fatal (the
node is freed), success returns the value left in `uses->grp` — possibly
none. -/
def readYinUsesGrp (env : UsesEnv) (usesName : String) : Except UsesErr (Option GrpRef) :=
  match splitColon usesName with
  | some (pre, loc) =>
    if pre = env.modPref then .ok (usesUnprefixedSearch env loc)
    else if env.impPrefs.contains pre then
      match findGrpIdx env.modData loc with
      | none => .error .inArg
      | some i => .ok (some (.topLevel i))
    else .error .inPref
  | none => .ok (usesUnprefixedSearch env usesName)

/-- C8 (counterexample): an unprefixed `uses g` whose grouping exists
nowhere — top level holds only a leaf, no parent — SUCCEEDS with a null
grouping reference instead of failing with the invalid-argument error: the
unprefixed branch of `read_yin_uses` has no `!uses->grp` check. -/
theorem uses_unresolved_unprefixed_succeeds :
    readYinUsesGrp ⟨"m", [], [⟨NType.leaf, "x"⟩], none⟩ "g" = .ok none :=
  by rfl

/-- C8 (amended): a prefixed uses whose prefix (not the module's own)
matches no import fails with the unresolvable-prefix error; a prefixed uses
whose grouping is not found — the code searches the current module's
top-level data — fails with the invalid-argument error; but an unprefixed
uses never fails the enclosing scope: it succeeds with whatever the
local/top-level search found, a null reference when the grouping cannot be
located. -/
theorem uses_resolution_behavior :
    (∀ (env : UsesEnv) (usesName pre loc : String),
      splitColon usesName = some (pre, loc) → pre ≠ env.modPref →
      env.impPrefs.contains pre = false →
      readYinUsesGrp env usesName = .error .inPref)
    ∧ (∀ (env : UsesEnv) (usesName pre loc : String),
      splitColon usesName = some (pre, loc) → pre ≠ env.modPref →
      env.impPrefs.contains pre = true →
      findGrpIdx env.modData loc = none →
      readYinUsesGrp env usesName = .error .inArg)
    ∧ (∀ (env : UsesEnv) (usesName : String),
      splitColon usesName = none →
      readYinUsesGrp env usesName = .ok (usesUnprefixedSearch env usesName)) := by
  refine ⟨?_, ?_, ?_⟩
  · intro env usesName pre loc hsplit hpre himp
    rw [readYinUsesGrp, hsplit]
    simp only [if_neg hpre, himp]
    rfl
  · intro env usesName pre loc hsplit hpre himp hfind
    rw [readYinUsesGrp, hsplit]
    simp only [if_neg hpre, himp, if_true, hfind]
  · intro env usesName hsplit
    rw [readYinUsesGrp, hsplit]

/-- C8 witness: the amended behavior on a prefixed uses `q:g` in a module
with prefix m and no imports. -/
theorem uses_resolution_behavior_witness :
    readYinUsesGrp ⟨"m", [], [], none⟩ "q:g" = .error .inPref :=
  uses_resolution_behavior.1 ⟨"m", [], [], none⟩ "q:g" "q" "g" (by rfl)
    (by decide) (by rfl)

/-! ## Recognition of statements (C9)

`read_sub_module` frees (without even a warning) any child whose namespace
is not the YIN namespace (lines 1568-1573).  But statements IN the YIN
namespace that no branch recognises are not errors either: `read_yin_leaf`'s
child loop has no else branch (lines 982-989), and the data-node dispatch of
`read_yin_list` falls through a bare `/* TODO error */ continue`
(lines 1146-1149); unmatched children of the first list loop are simply left
behind.  We model the first child loop of `read_yin_list`. -/

/-- The seven data-definition statement names staged by the first loops. -/
def lyDataStmts : List String :=
  ["container", "leaf-list", "leaf", "list", "choice", "uses", "grouping"]

/-- Result of the first child loop of `read_yin_list` (lines 1064-1103). -/
structure ListClassified where
  staged : List String
  keyStr : Option String
  tpdfCount : Nat
  ignored : List String
deriving Repr, DecidableEq

/-- The first child loop of `read_yin_list`: data statements are staged
under the scratch root, `key` (cardinality 0..1, `value` attribute
mandatory) records the key string, `typedef` is counted — and any other
child matches no branch and is left in place without an error. -/
def classifyListChildrenAux :
    List (String × Option String) → ListClassified → Except Unit ListClassified
  | [], acc => .ok acc
  | c :: rest, acc =>
    if lyDataStmts.contains c.1 then
      classifyListChildrenAux rest { acc with staged := acc.staged ++ [c.1] }
    else if c.1 = "key" then
      if acc.keyStr.isSome then .error ()
      else
        match c.2 with
        | none => .error ()
        | some s => classifyListChildrenAux rest { acc with keyStr := some s }
    else if c.1 = "typedef" then
      classifyListChildrenAux rest { acc with tpdfCount := acc.tpdfCount + 1 }
    else
      classifyListChildrenAux rest { acc with ignored := acc.ignored ++ [c.1] }

/-- The first child loop of `read_yin_list` from the empty classification. -/
def classifyListChildren (children : List (String × Option String)) :
    Except Unit ListClassified :=
  classifyListChildrenAux children ⟨[], none, 0, []⟩

/-- C9 (code evaluated at the failing inputs): unrecognised statements in
the YIN namespace are silently ignored, not errors.  (a) a leaf with
children units, type string, and an unknown element parses successfully —
`read_yin_leaf` reacts only to `type`; (b) a list whose children are a
leaf, a key, and an unknown element `banana` passes the classification loop
successfully with `banana` merely left aside (the dispatch that would see
it is a bare `/* TODO error */ continue`). -/
theorem unknown_yin_statements_ignored :
    readYinLeafDer [] [("units", "u"), ("type", "string"), ("frobnicate", "z")]
      = some (some (Der.builtin "string")) ∧
    classifyListChildren [("leaf", none), ("key", some "k"), ("banana", none)]
      = .ok ⟨["leaf"], some "k", 0, ["banana"]⟩ :=
  ⟨by rfl, by rfl⟩

/-! ## List key binding (`read_yin_list`, lines 1040-1238)

When the list carries the `LY_NODE_CONFIG_W` flag, a missing `key`
statement is a hard error (line 1106).  The key string is tokenised twice:
the counting loop (lines 1090-1096) counts whitespace runs (+1) into
`keys_size`, and the binding loop (lines 1165-1226) extracts each token,
looks it up among the list's direct children, and checks in order:
existence (`VE_KEY_MISS`), pointer uniqueness against the keys already
bound (`VE_KEY_DUP`), leaf-ness (`VE_KEY_NLEAF`), base type not empty
(`VE_KEY_TYPE`) and equal config mask (`VE_KEY_CONFIG`).  Any failure takes
the error path, which frees the partially built list. -/

/-- The separator set of the key tokeniser: `strpbrk(s, " \t\n")`. -/
def isKeyWs (c : Char) : Bool := c = ' ' || c = '\t' || c = '\n'

/-- `strpbrk(s, " \t\n")`: the suffix starting at the first separator. -/
def strpbrkWs (s : List Char) : Option (List Char) :=
  if (s.dropWhile (fun c => !(isKeyWs c))).isEmpty then none
  else some (s.dropWhile (fun c => !(isKeyWs c)))

/-- `while (isspace(*s)) s++`. -/
def skipSpaces (s : List Char) : List Char := s.dropWhile (fun c => cIsSpace c)

/-- A strpbrk separator is also an isspace character. -/
theorem isKeyWs_isSpace (c : Char) (h : isKeyWs c = true) : cIsSpace c = true := by
  rcases (by simpa [isKeyWs] using h : (c = ' ' ∨ c = '\t') ∨ c = '\n') with hc | hc
  · rcases hc with hc | hc <;> simp [hc, cIsSpace]
  · simp [hc, cIsSpace]

/-- The head of a nonempty `dropWhile` falsifies the predicate. -/
theorem dropWhile_head_not {α : Type} (p : α → Bool) :
    ∀ (l : List α) (c : α) (cr : List α), l.dropWhile p = c :: cr → p c = false := by
  intro l
  induction l with
  | nil => intro c cr h; simp at h
  | cons x rest ih =>
    intro c cr h
    by_cases hx : p x
    · rw [List.dropWhile_cons, if_pos hx] at h
      exact ih c cr h
    · rw [List.dropWhile_cons, if_neg hx] at h
      cases h
      exact Bool.of_not_eq_true hx

/-- `dropWhile` never lengthens a list. -/
theorem dropWhile_length_le {α : Type} (p : α → Bool) :
    ∀ (l : List α), (l.dropWhile p).length ≤ l.length := by
  intro l
  induction l with
  | nil => simp
  | cons x rest ih =>
    by_cases hx : p x
    · rw [List.dropWhile_cons, if_pos hx]
      simp only [List.length_cons]
      omega
    · rw [List.dropWhile_cons, if_neg hx]

/-- After a separator is found, skipping the whitespace run strictly
shrinks the string: this is what makes the counting loop terminate. -/
theorem strpbrk_skip_shrinks :
    ∀ (s r : List Char), strpbrkWs s = some r → (skipSpaces r).length < s.length := by
  intro s r h
  rw [strpbrkWs] at h
  split at h
  · simp at h
  next hne =>
    have hr : r = s.dropWhile (fun c => !(isKeyWs c)) := by cases h; rfl
    cases hd : s.dropWhile (fun c => !(isKeyWs c)) with
    | nil => rw [hd] at hne; simp at hne
    | cons c cr =>
      have hc : isKeyWs c = true := by
        have := dropWhile_head_not (fun c => !(isKeyWs c)) s c cr hd
        simpa using this
      have hsp : cIsSpace c = true := isKeyWs_isSpace c hc
      have hlen : (c :: cr).length ≤ s.length := by
        rw [← hd]; exact dropWhile_length_le _ s
      rw [hr, hd]
      unfold skipSpaces
      rw [List.dropWhile_cons, if_pos hsp]
      have := dropWhile_length_le (fun c => cIsSpace c) cr
      simp only [List.length_cons] at hlen
      omega

/-- The key-counting loop (lines 1090-1096): one more than the number of
whitespace runs of the key string. -/
def countKeys (s : List Char) : Nat :=
  match hs : strpbrkWs s with
  | none => 1
  | some r => 1 + countKeys (skipSpaces r)
termination_by s.length
decreasing_by exact strpbrk_skip_shrinks s r hs

/-- A list child as relevant to key binding: interned name, node kind, base
kind of its type (canonical name; "empty" for `LY_TYPE_EMPTY`), config
mask. -/
structure LChild where
  cname : List Char
  ctype : NType
  cbase : String
  ccfg : CfgFlags
deriving Repr, DecidableEq, Inhabited

/-- The child scan of the binding loop: the first direct child whose name
equals the token (`!strncmp(mnode->name, key_str, len) && !mnode->name[len]`). -/
def findChildIdx : List LChild → List Char → Option Nat
  | [], _ => none
  | c :: rest, nm => if c.cname = nm then some 0 else (findChildIdx rest nm).map (· + 1)

/-- A successful child scan returns an in-range index of a child carrying
the token as its name. -/
theorem findChildIdx_spec :
    ∀ (l : List LChild) (nm : List Char) (k : Nat),
      findChildIdx l nm = some k → k < l.length := by
  intro l
  induction l with
  | nil => intro nm k h; simp [findChildIdx] at h
  | cons x rest ih =>
    intro nm k h
    rw [findChildIdx] at h
    split at h
    · cases h; simp
    · cases hr : findChildIdx rest nm with
      | none => rw [hr] at h; simp at h
      | some k' =>
        rw [hr] at h
        simp only [Option.map_some'] at h
        cases h
        have := ih nm k' hr
        simpa using this

/-- The key-binding loop (lines 1165-1226): `n` iterations (keys_size),
`s` the rest of the key string, `acc` the keys already bound (as indices
into the list's direct children). -/
def linkKeysAux (children : List LChild) (listCfg : CfgFlags) :
    Nat → List Char → List Nat → Option (List Nat)
  | 0, _, acc => some acc
  | n + 1, s, acc =>
    match findChildIdx children (s.takeWhile (fun c => !(isKeyWs c))) with
    | none => none
    | some k =>
      if acc.any (fun j => j = k) then none
      else if (children.getD k default).ctype ≠ NType.leaf then none
      else if (children.getD k default).cbase = "empty" then none
      else if (children.getD k default).ccfg ≠ listCfg then none
      else linkKeysAux children listCfg n
        (skipSpaces (s.dropWhile (fun c => !(isKeyWs c)))) (acc ++ [k])

/-- The key-relevant behaviour of `read_yin_list`: the mandatory-key check
for a configuration list (line 1106), then the binding loop; `none` models
the error path (the partially built list is freed). -/
def readYinListKeys (children : List LChild) (listCfg : CfgFlags)
    (keyStr : Option (List Char)) : Option (List Nat) :=
  match keyStr with
  | none => if listCfg.cfgW then none else some []
  | some s => linkKeysAux children listCfg (countKeys s) s []

/-- The conditions claim C5 states for the keys of a compiled
configuration list: non-empty, pairwise distinct, and each key a direct
leaf child with non-empty base type and the list's config mask. -/
def goodKeys (children : List LChild) (listCfg : CfgFlags) (keys : List Nat) : Prop :=
  keys ≠ [] ∧ keys.Nodup ∧
  ∀ k, k ∈ keys → k < children.length ∧
    (children.getD k default).ctype = NType.leaf ∧
    (children.getD k default).cbase ≠ "empty" ∧
    (children.getD k default).ccfg = listCfg

/-- The counting loop always reports at least one key. -/
theorem countKeys_pos : ∀ (s : List Char), 1 ≤ countKeys s := by
  intro s
  rw [countKeys]
  split <;> omega

/-- Every successful run of the binding loop binds exactly `n` further
keys, keeps them pairwise distinct, and every newly bound key is an
in-range direct child that is a leaf, has a non-empty base type, and
carries the list's config mask. -/
theorem linkKeysAux_spec :
    ∀ (n : Nat) (children : List LChild) (cfg : CfgFlags) (s : List Char)
      (acc keys : List Nat),
      linkKeysAux children cfg n s acc = some keys →
      keys.length = acc.length + n ∧
      (acc.Nodup → keys.Nodup) ∧
      ∀ k, k ∈ keys → k ∈ acc ∨
        (k < children.length ∧ (children.getD k default).ctype = NType.leaf ∧
         (children.getD k default).cbase ≠ "empty" ∧
         (children.getD k default).ccfg = cfg) := by
  intro n
  induction n with
  | zero =>
    intro children cfg s acc keys h
    simp only [linkKeysAux] at h
    cases h
    exact ⟨by simp, fun hd => hd, fun k hk => Or.inl hk⟩
  | succ m ih =>
    intro children cfg s acc keys h
    rw [linkKeysAux] at h
    split at h
    · exact absurd h (by simp)
    next k0 hfind =>
      split at h
      · exact absurd h (by simp)
      next hdup =>
      split at h
      · exact absurd h (by simp)
      next hleaf =>
      split at h
      · exact absurd h (by simp)
      next hempty =>
      split at h
      · exact absurd h (by simp)
      next hcfg =>
      obtain ⟨hlen, hnd, hmem⟩ := ih children cfg _ (acc ++ [k0]) keys h
      have hk0 : k0 < children.length := findChildIdx_spec children _ k0 hfind
      have hk0nin : k0 ∉ acc := by
        intro hin
        exact hdup (List.any_eq_true.mpr ⟨k0, hin, by simp⟩)
      have hleaf' : (children.getD k0 default).ctype = NType.leaf := not_ne_iff.mp hleaf
      have hcfg' : (children.getD k0 default).ccfg = cfg := not_ne_iff.mp hcfg
      refine ⟨?_, ?_, ?_⟩
      · rw [hlen]
        simp only [List.length_append, List.length_cons, List.length_nil]
        omega
      · intro hacc
        apply hnd
        rw [List.nodup_append]
        refine ⟨hacc, List.nodup_singleton _, ?_⟩
        intro a ha hb
        rw [List.mem_singleton] at hb
        subst hb
        exact hk0nin ha
      · intro k hk
        rcases hmem k hk with hin | hprops
        · rcases List.mem_append.mp hin with h1 | h1
          · exact Or.inl h1
          · have hkk : k = k0 := by simpa using h1
            subst hkk
            exact Or.inr ⟨hk0, hleaf', hempty, hcfg'⟩
        · exact Or.inr hprops

/-- C5: for every list compiled with config true (the W flag), a missing
key statement is fatal, and a successfully bound key set is non-empty,
pairwise distinct, and each key is a direct leaf child with a non-empty
base type carrying the list's config mask; a key token violating any of
these conditions makes the binding fail (return none: the error path that
frees the partially built list). -/
theorem list_config_keys_good :
    ∀ (children : List LChild) (keyStr : Option (List Char)) (keys : List Nat),
      readYinListKeys children cfgW keyStr = some keys →
      goodKeys children cfgW keys := by
  intro children keyStr keys h
  cases keyStr with
  | none =>
    rw [readYinListKeys] at h
    simp [cfgW] at h
  | some s =>
    rw [readYinListKeys] at h
    obtain ⟨hlen, hnd, hmem⟩ := linkKeysAux_spec (countKeys s) children cfgW s [] keys h
    have hcnt : 1 ≤ countKeys s := countKeys_pos s
    refine ⟨?_, hnd List.nodup_nil, ?_⟩
    · intro he
      subst he
      simp only [List.length_nil] at hlen
      omega
    · intro k hk
      rcases hmem k hk with hin | hp
      · exact absurd hin (by simp)
      · exact hp

/-- C5 witness: the key invariant applied to the concrete list with key "k"
over direct leaf children k and v of type string and config W. -/
theorem list_config_keys_good_witness :
    goodKeys [⟨"k".toList, NType.leaf, "string", cfgW⟩, ⟨"v".toList, NType.leaf, "string", cfgW⟩]
      cfgW [0] :=
  list_config_keys_good
    [⟨"k".toList, NType.leaf, "string", cfgW⟩, ⟨"v".toList, NType.leaf, "string", cfgW⟩]
    (some "k".toList) [0]
    (by
      show linkKeysAux
        [⟨"k".toList, NType.leaf, "string", cfgW⟩, ⟨"v".toList, NType.leaf, "string", cfgW⟩]
        cfgW (countKeys "k".toList) "k".toList [] = some [0]
      rw [countKeys]
      decide)
